import Mathlib

/-!
Verification of the backman backup utility (`src/main.go`) against its
natural-language specification.  The Go source is shallowly embedded:
pure helpers become Lean functions over `Nat` / `Int` / `List Char`,
filesystem state becomes explicit list/finset state, and fallible
operations return explicit outcome types.
-/

namespace Backman

/-! ### Identifier allocator (`closestMissing`, main.go:562-604) -/

/-- Model of `sort.Slice(nums, func(i, j int) bool { return nums[i] < nums[j] })`:
the ascending sort of the slice.  Any sorting algorithm yields the same list
because `≤` on `Nat` is total and antisymmetric. -/
def sortNat (nums : List Nat) : List Nat :=
  List.insertionSort (· ≤ ·) nums

/-- Body of the in-place adjacent-duplicate removal loop in `closestMissing`
(main.go:570-575): `prev` is the last written element (`nums[write-1]`); an
element is written only when it differs from it. -/
def dedupGo (prev : Nat) : List Nat → List Nat
  | [] => []
  | x :: rest => if x = prev then dedupGo prev rest else x :: dedupGo x rest

/-- Adjacent-duplicate removal of `closestMissing` (main.go:569-576): the
first element is always kept (`write = 1`), the rest goes through the loop. -/
def dedupAdj : List Nat → List Nat
  | [] => []
  | a :: rest => a :: dedupGo a rest

/-- Model of the widest-gap scan in `closestMissing` (main.go:578-586):
walks consecutive pairs carrying `(bestGap, bestIdx)`, updating only on a
strictly larger gap.  Gaps are computed in `Int`, mirroring the Go
`int(nums[i+1]) - int(nums[i]) - 1`. -/
def gapLoop : List Nat → Nat → Int × Nat → Int × Nat
  | a :: b :: rest, i, acc =>
    gapLoop (b :: rest) (i + 1)
      (if acc.1 < (b : Int) - (a : Int) - 1 then ((b : Int) - (a : Int) - 1, i) else acc)
  | _, _, acc => acc

/-- Model of `closestMissing` (main.go:562-604).  Identifiers are `uint16`
in Go; they are modelled as `Nat`.  No arithmetic operation in the function
overflows `uint16` on inputs below 65536, so the `Nat` model agrees with the
Go semantics on the whole `uint16` domain. -/
def closestMissing (nums : List Nat) : Nat :=
  if nums.length = 0 then 0
  else
    let l := dedupAdj (sortNat nums)
    let r := gapLoop l 0 (0, 0)
    if 0 < r.1 then l.getD r.2 0 + 1
    else
      let maxv := l.getD (l.length - 1) 0
      if maxv < 65535 then maxv + 1
      else
        let minv := l.getD 0 0
        if 0 < minv then minv - 1
        else 0

example : closestMissing [0, 1, 5, 6] = 2 := by decide
example : closestMissing [] = 0 := by decide
example : closestMissing [0, 1, 2, 3] = 4 := by decide
example : closestMissing [3, 7] = 4 := by decide

/-! #### Lemmas about the dedup pass -/

theorem mem_dedupGo_of_mem {x : Nat} :
    ∀ (l : List Nat) (prev : Nat), x ∈ l → x = prev ∨ x ∈ dedupGo prev l := by
  intro l
  induction l with
  | nil => intro prev h; cases h
  | cons y rest ih =>
    intro prev h
    by_cases hy : y = prev
    · simp only [dedupGo, if_pos hy]
      rcases List.mem_cons.1 h with rfl | hr
      · exact Or.inl hy
      · exact ih prev hr
    · simp only [dedupGo, if_neg hy]
      rcases List.mem_cons.1 h with rfl | hr
      · exact Or.inr (List.mem_cons_self _ _)
      · rcases ih y hr with rfl | hmem
        · exact Or.inr (List.mem_cons_self _ _)
        · exact Or.inr (List.mem_cons_of_mem _ hmem)

theorem mem_of_mem_dedupGo {x : Nat} :
    ∀ (l : List Nat) (prev : Nat), x ∈ dedupGo prev l → x ∈ l := by
  intro l
  induction l with
  | nil => intro prev h; cases h
  | cons y rest ih =>
    intro prev h
    by_cases hy : y = prev
    · simp only [dedupGo, if_pos hy] at h
      exact List.mem_cons_of_mem _ (ih prev h)
    · simp only [dedupGo, if_neg hy] at h
      rcases List.mem_cons.1 h with rfl | hr
      · exact List.mem_cons_self _ _
      · exact List.mem_cons_of_mem _ (ih y hr)

theorem mem_dedupAdj {x : Nat} (l : List Nat) : x ∈ dedupAdj l ↔ x ∈ l := by
  cases l with
  | nil => simp [dedupAdj]
  | cons a rest =>
    simp only [dedupAdj, List.mem_cons]
    constructor
    · rintro (rfl | h)
      · exact Or.inl rfl
      · exact Or.inr (mem_of_mem_dedupGo rest a h)
    · rintro (rfl | h)
      · exact Or.inl rfl
      · rcases mem_dedupGo_of_mem rest a h with rfl | hm
        · exact Or.inl rfl
        · exact Or.inr hm

theorem pairwise_lt_dedupGo :
    ∀ (l : List Nat) (prev : Nat), List.Pairwise (· ≤ ·) l → (∀ y ∈ l, prev ≤ y) →
      List.Pairwise (· < ·) (prev :: dedupGo prev l) := by
  intro l
  induction l with
  | nil => intro prev _ _; simp [dedupGo]
  | cons y rest ih =>
    intro prev hpw hle
    rcases List.pairwise_cons.1 hpw with ⟨hyrest, hrest⟩
    by_cases hy : y = prev
    · simp only [dedupGo, if_pos hy]
      exact ih prev hrest (fun z hz => hy ▸ hyrest z hz)
    · simp only [dedupGo, if_neg hy]
      have hprevy : prev < y :=
        lt_of_le_of_ne (hle y (List.mem_cons_self _ _)) (fun h => hy h.symm)
      have htail := ih y hrest hyrest
      refine List.pairwise_cons.2 ⟨?_, htail⟩
      intro z hz
      rcases List.mem_cons.1 hz with rfl | hzmem
      · exact hprevy
      · exact lt_of_lt_of_le hprevy (hyrest z (mem_of_mem_dedupGo rest y hzmem))

theorem pairwise_lt_dedupAdj {l : List Nat} (h : List.Pairwise (· ≤ ·) l) :
    List.Pairwise (· < ·) (dedupAdj l) := by
  cases l with
  | nil => simp [dedupAdj]
  | cons a rest =>
    rcases List.pairwise_cons.1 h with ⟨harest, hrest⟩
    exact pairwise_lt_dedupGo rest a hrest harest

theorem dedupAdj_ne_nil {l : List Nat} (h : l ≠ []) : dedupAdj l ≠ [] := by
  cases l with
  | nil => exact absurd rfl h
  | cons a rest => simp [dedupAdj]

/-- The canonical strictly ascending list of identifiers actually used by
`closestMissing`: sort ascending, then drop adjacent duplicates. -/
def canon (nums : List Nat) : List Nat := dedupAdj (sortNat nums)

theorem mem_canon {x : Nat} (nums : List Nat) : x ∈ canon nums ↔ x ∈ nums := by
  unfold canon sortNat
  rw [mem_dedupAdj, List.mem_insertionSort]

theorem pairwise_lt_canon (nums : List Nat) : List.Pairwise (· < ·) (canon nums) :=
  pairwise_lt_dedupAdj (List.sorted_insertionSort (· ≤ ·) nums)

theorem canon_ne_nil {nums : List Nat} (h : nums ≠ []) : canon nums ≠ [] := by
  rcases List.exists_mem_of_ne_nil nums h with ⟨x, hx⟩
  exact List.ne_nil_of_mem ((mem_canon nums).2 hx)

/-! #### The gap scan -/

/-- The interior gap between the consecutive pair at index `k` of `l`
(`int(nums[k+1]) - int(nums[k]) - 1` in the Go source). -/
def gapD (l : List Nat) (k : Nat) : Int :=
  (l.getD (k + 1) 0 : Int) - (l.getD k 0 : Int) - 1

theorem gapD_cons (a : Nat) (l : List Nat) (k : Nat) :
    gapD (a :: l) (k + 1) = gapD l k := rfl

/-- Complete characterization of the widest-gap loop: either nothing beat the
initial accumulator and it is returned unchanged, or the result is the gap at
the first index attaining the maximum gap (among those exceeding the initial
accumulator). -/
theorem gapLoop_char :
    ∀ (l : List Nat) (i : Nat) (bg : Int) (bi : Nat),
      (gapLoop l i (bg, bi) = (bg, bi) ∧ ∀ k, k + 1 < l.length → gapD l k ≤ bg) ∨
      (∃ k, k + 1 < l.length ∧ gapLoop l i (bg, bi) = (gapD l k, i + k) ∧ bg < gapD l k ∧
        (∀ j, j + 1 < l.length → gapD l j ≤ gapD l k) ∧ (∀ j, j < k → gapD l j < gapD l k)) := by
  intro l
  induction l with
  | nil =>
    intro i bg bi
    exact Or.inl ⟨rfl, fun k hk => by simp at hk⟩
  | cons a tail ih =>
    intro i bg bi
    cases tail with
    | nil =>
      refine Or.inl ⟨rfl, fun k hk => ?_⟩
      simp only [List.length_cons, List.length_nil] at hk
      omega
    | cons b rest =>
      have hg0 : gapD (a :: b :: rest) 0 = (b : Int) - (a : Int) - 1 := rfl
      by_cases hlt : bg < (b : Int) - (a : Int) - 1
      · have hstep : gapLoop (a :: b :: rest) i (bg, bi) =
            gapLoop (b :: rest) (i + 1) ((b : Int) - (a : Int) - 1, i) := by
          simp [gapLoop, hlt]
        rcases ih (i + 1) ((b : Int) - (a : Int) - 1) i with ⟨heq, hall⟩ | ⟨k, hk, heq, hbg, hall, hfirst⟩
        · refine Or.inr ⟨0, by simp, ?_, by rw [hg0]; exact hlt, ?_, ?_⟩
          · rw [hstep, heq, hg0, Nat.add_zero]
          · intro j hj
            cases j with
            | zero => exact le_of_eq rfl
            | succ j' =>
              rw [gapD_cons, hg0]
              exact hall j' (by simpa using hj)
          · intro j hj; omega
        · refine Or.inr ⟨k + 1, by simpa using hk, ?_, ?_, ?_, ?_⟩
          · rw [hstep, heq, gapD_cons]
            congr 1
            omega
          · rw [gapD_cons]; exact lt_trans hlt hbg
          · intro j hj
            cases j with
            | zero => rw [hg0, gapD_cons]; exact le_of_lt hbg
            | succ j' => rw [gapD_cons, gapD_cons]; exact hall j' (by simpa using hj)
          · intro j hj
            cases j with
            | zero => rw [hg0, gapD_cons]; exact hbg
            | succ j' => rw [gapD_cons, gapD_cons]; exact hfirst j' (by omega)
      · have hstep : gapLoop (a :: b :: rest) i (bg, bi) =
            gapLoop (b :: rest) (i + 1) (bg, bi) := by
          simp [gapLoop, hlt]
        rcases ih (i + 1) bg bi with ⟨heq, hall⟩ | ⟨k, hk, heq, hbg, hall, hfirst⟩
        · refine Or.inl ⟨by rw [hstep, heq], ?_⟩
          intro j hj
          cases j with
          | zero => rw [hg0]; exact le_of_not_lt hlt
          | succ j' => rw [gapD_cons]; exact hall j' (by simpa using hj)
        · refine Or.inr ⟨k + 1, by simpa using hk, ?_, ?_, ?_, ?_⟩
          · rw [hstep, heq, gapD_cons]
            congr 1
            omega
          · rw [gapD_cons]; exact hbg
          · intro j hj
            cases j with
            | zero => rw [hg0, gapD_cons]; exact le_trans (le_of_not_lt hlt) (le_of_lt hbg)
            | succ j' => rw [gapD_cons, gapD_cons]; exact hall j' (by simpa using hj)
          · intro j hj
            cases j with
            | zero => rw [hg0, gapD_cons]; exact lt_of_le_of_lt (le_of_not_lt hlt) hbg
            | succ j' => rw [gapD_cons, gapD_cons]; exact hfirst j' (by omega)

/-! #### Index arithmetic on strictly ascending lists -/

theorem getD_lt_getD {l : List Nat} (h : List.Pairwise (· < ·) l) {i j : Nat}
    (hij : i < j) (hj : j < l.length) : l.getD i 0 < l.getD j 0 := by
  have hi : i < l.length := lt_trans hij hj
  rw [List.getD_eq_getElem _ _ hi, List.getD_eq_getElem _ _ hj]
  exact List.pairwise_iff_get.1 h ⟨i, hi⟩ ⟨j, hj⟩ hij

theorem getD_le_getD {l : List Nat} (h : List.Pairwise (· < ·) l) {i j : Nat}
    (hij : i ≤ j) (hj : j < l.length) : l.getD i 0 ≤ l.getD j 0 := by
  rcases Nat.eq_or_lt_of_le hij with rfl | hlt
  · exact le_refl _
  · exact le_of_lt (getD_lt_getD h hlt hj)

theorem getD_mem_self {l : List Nat} {j : Nat} (hj : j < l.length) : l.getD j 0 ∈ l := by
  rw [List.getD_eq_getElem _ _ hj]
  exact List.getElem_mem hj

theorem mem_getD {l : List Nat} {x : Nat} (h : x ∈ l) :
    ∃ j, j < l.length ∧ l.getD j 0 = x := by
  rcases List.mem_iff_getElem.1 h with ⟨j, hj, hx⟩
  exact ⟨j, hj, by rw [List.getD_eq_getElem _ _ hj]; exact hx⟩

/-- When no interior gap is positive, a strictly ascending list is one
consecutive run starting at its head. -/
theorem consec_getD {l : List Nat} (hpw : List.Pairwise (· < ·) l)
    (hall : ∀ k, k + 1 < l.length → gapD l k ≤ 0) :
    ∀ j, j < l.length → l.getD j 0 = l.getD 0 0 + j := by
  intro j
  induction j with
  | zero => intro _; simp
  | succ j' ihj =>
    intro hj
    have hj' : j' < l.length := by omega
    have hlt := getD_lt_getD hpw (show j' < j' + 1 by omega) hj
    have hle := hall j' hj
    unfold gapD at hle
    have hrec := ihj hj'
    omega

/-- Restatement of `closestMissing` on a nonempty input through `canon`. -/
theorem closestMissing_eq (nums : List Nat) (h : ¬nums.length = 0) :
    closestMissing nums =
      (if 0 < (gapLoop (canon nums) 0 (0, 0)).1 then
        (canon nums).getD (gapLoop (canon nums) 0 (0, 0)).2 0 + 1
      else if (canon nums).getD ((canon nums).length - 1) 0 < 65535 then
        (canon nums).getD ((canon nums).length - 1) 0 + 1
      else if 0 < (canon nums).getD 0 0 then (canon nums).getD 0 0 - 1
      else 0) := by
  unfold closestMissing canon
  rw [if_neg h]

/-- C1: on any identifier list (of `uint16` values) whose underlying set does
not already contain all of `0..65535`, `closestMissing` returns an identifier
absent from that set. -/
theorem closestMissing_fresh (nums : List Nat)
    (hbound : ∀ x ∈ nums, x < 65536)
    (hmiss : ∃ m, m < 65536 ∧ m ∉ nums) :
    closestMissing nums ∉ nums := by
  by_cases hnil : nums.length = 0
  · have : nums = [] := List.eq_nil_of_length_eq_zero hnil
    subst this
    simp [closestMissing]
  · rw [closestMissing_eq nums hnil]
    have hpw := pairwise_lt_canon nums
    rcases gapLoop_char (canon nums) 0 0 0 with ⟨heq, hall⟩ | ⟨k, hk, heq, hpos, _, _⟩
    · rw [heq]
      simp only [show ¬(0 : Int) < 0 by omega, if_false]
      have hcons := consec_getD hpw hall
      by_cases hmax : (canon nums).getD ((canon nums).length - 1) 0 < 65535
      · rw [if_pos hmax]
        intro hcontra
        rcases mem_getD ((mem_canon nums).2 hcontra) with ⟨j, hj, hx⟩
        have hle := getD_le_getD hpw (show j ≤ (canon nums).length - 1 by omega)
          (show (canon nums).length - 1 < (canon nums).length by omega)
        omega
      · rw [if_neg hmax]
        by_cases hmin : 0 < (canon nums).getD 0 0
        · rw [if_pos hmin]
          intro hcontra
          rcases mem_getD ((mem_canon nums).2 hcontra) with ⟨j, hj, hx⟩
          have hle := getD_le_getD hpw (Nat.zero_le j) hj
          omega
        · exfalso
          rcases hmiss with ⟨m, hm, hnotin⟩
          have hne : canon nums ≠ [] := canon_ne_nil (by
            intro hcon; exact hnil (by rw [hcon]; rfl))
          have hlen : 0 < (canon nums).length := List.length_pos.2 hne
          have hmaxval := hcons ((canon nums).length - 1) (by omega)
          have hmlt : m < (canon nums).length := by omega
          have := hcons m hmlt
          exact hnotin ((mem_canon nums).1 (by
            have hmem := getD_mem_self hmlt
            rwa [this, show (canon nums).getD 0 0 = 0 by omega, Nat.zero_add] at hmem))
    · rw [heq]
      simp only [Nat.zero_add, if_pos hpos]
      intro hcontra
      rcases mem_getD ((mem_canon nums).2 hcontra) with ⟨j, hj, hx⟩
      unfold gapD at hpos
      rcases le_or_lt j k with hjk | hjk
      · have := getD_le_getD hpw hjk (by omega)
        omega
      · have := getD_le_getD hpw (show k + 1 ≤ j by omega) hj
        omega

/-- Witness for C1 at the concrete input `[0, 1, 5, 6]` (missing value 2). -/
theorem closestMissing_fresh_witness :
    (∀ x ∈ [0, 1, 5, 6], x < 65536) ∧ (∃ m, m < 65536 ∧ m ∉ [0, 1, 5, 6]) ∧
      closestMissing [0, 1, 5, 6] ∉ [0, 1, 5, 6] :=
  ⟨by decide, ⟨2, by decide, by decide⟩,
    closestMissing_fresh [0, 1, 5, 6] (by decide) ⟨2, by decide, by decide⟩⟩

/-! #### Spec-side allocator (refinement target for C3) -/

/-- The interior gaps of `l`, in pair order. -/
def gapListOf (l : List Nat) : List Int := (List.range (l.length - 1)).map (gapD l)

/-- Maximum of a list of gaps, `0` when the list is empty. -/
def maxGapList (gs : List Int) : Int := gs.foldr max 0

/-- The widest interior gap of the deduplicated ascending list (spec §4.2). -/
def widestGap (l : List Nat) : Int := maxGapList (gapListOf l)

/-- `allocate` as worded by the spec (§4.2 / claim C3): deduplicate and sort
ascending; if the widest interior gap `next - prev - 1` is positive, return
`prev + 1` for the (first) pair attaining it; otherwise if the maximum
identifier is below 65535 return `max + 1`; otherwise if the minimum is above
0 return `min - 1`; otherwise return 0.  Zero identifiers yield 0. -/
def allocateSpec (nums : List Nat) : Nat :=
  if nums = [] then 0
  else if 0 < widestGap (canon nums) then
    match (List.range ((canon nums).length - 1)).find?
        (fun k => decide (gapD (canon nums) k = widestGap (canon nums))) with
    | some k => (canon nums).getD k 0 + 1
    | none => 0
  else if (canon nums).getD ((canon nums).length - 1) 0 < 65535 then
    (canon nums).getD ((canon nums).length - 1) 0 + 1
  else if 0 < (canon nums).getD 0 0 then (canon nums).getD 0 0 - 1
  else 0

theorem le_maxGapList {g : Int} {gs : List Int} (h : g ∈ gs) : g ≤ maxGapList gs := by
  induction gs with
  | nil => cases h
  | cons x xs ih =>
    rcases List.mem_cons.1 h with rfl | h'
    · exact le_max_left _ _
    · exact le_trans (ih h') (le_max_right _ _)

theorem maxGapList_nonneg (gs : List Int) : 0 ≤ maxGapList gs := by
  induction gs with
  | nil => exact le_refl _
  | cons x xs ih => exact le_trans ih (le_max_right _ _)

theorem maxGapList_le {c : Int} (h0 : 0 ≤ c) (gs : List Int)
    (h : ∀ g ∈ gs, g ≤ c) : maxGapList gs ≤ c := by
  induction gs with
  | nil => exact h0
  | cons x xs ih =>
    exact max_le (h x (List.mem_cons_self _ _))
      (ih (fun g hg => h g (List.mem_cons_of_mem _ hg)))

theorem maxGapList_eq_of_max {g : Int} {gs : List Int} (hmem : g ∈ gs)
    (hmax : ∀ x ∈ gs, x ≤ g) (h0 : 0 ≤ g) : maxGapList gs = g :=
  le_antisymm (maxGapList_le h0 gs hmax) (le_maxGapList hmem)

theorem find?_range'_first (p : Nat → Bool) :
    ∀ (n s k : Nat), s ≤ k → k < s + n → p k = true →
      (∀ j, s ≤ j → j < k → p j = false) →
      (List.range' s n).find? p = some k := by
  intro n
  induction n with
  | zero => intro s k h1 h2 _ _; omega
  | succ n ih =>
    intro s k hsk hk hp hfirst
    rw [List.range'_succ]
    by_cases hks : k = s
    · subst hks
      simp [List.find?_cons, hp]
    · have hslt : s < k := lt_of_le_of_ne hsk (fun h => hks h.symm)
      have hps : p s = false := hfirst s (le_refl s) hslt
      simp only [List.find?_cons, hps]
      exact ih (s + 1) k (by omega) (by omega) hp (fun j h1 h2 => hfirst j (by omega) h2)

/-- C3: `closestMissing` implements exactly the spec's case analysis
(`allocateSpec`), and in particular `allocate({0,1,5,6}) = 2`. -/
theorem closestMissing_refines_spec :
    (∀ nums, closestMissing nums = allocateSpec nums) ∧ closestMissing [0, 1, 5, 6] = 2 := by
  constructor
  · intro nums
    by_cases hnil : nums = []
    · subst hnil
      simp [closestMissing, allocateSpec]
    · have hlen : ¬nums.length = 0 := fun h => hnil (List.eq_nil_of_length_eq_zero h)
      rw [closestMissing_eq nums hlen]
      unfold allocateSpec
      rw [if_neg hnil]
      rcases gapLoop_char (canon nums) 0 0 0 with ⟨heq, hall⟩ | ⟨k, hk, heq, hpos, hmax, hfirst⟩
      · have hwg : widestGap (canon nums) = 0 := by
          apply le_antisymm
          · apply maxGapList_le (le_refl 0)
            intro g hg
            rcases List.mem_map.1 hg with ⟨j, hj, rfl⟩
            exact hall j (by have := List.mem_range.1 hj; omega)
          · exact maxGapList_nonneg _
        rw [heq, hwg]
        simp only [lt_self_iff_false, if_false]
      · have hmemgap : gapD (canon nums) k ∈ gapListOf (canon nums) :=
          List.mem_map_of_mem _ (List.mem_range.2 (by omega))
        have hwg : widestGap (canon nums) = gapD (canon nums) k := by
          apply maxGapList_eq_of_max hmemgap _ (le_of_lt hpos)
          intro x hx
          rcases List.mem_map.1 hx with ⟨j, hj, rfl⟩
          exact hmax j (by have := List.mem_range.1 hj; omega)
        have hfind : (List.range ((canon nums).length - 1)).find?
            (fun j => decide (gapD (canon nums) j = widestGap (canon nums))) = some k := by
          rw [List.range_eq_range']
          apply find?_range'_first _ _ 0 k (Nat.zero_le k) (by omega)
          · exact decide_eq_true (hwg.symm)
          · intro j _ hjk
            apply decide_eq_false
            rw [hwg]
            exact ne_of_lt (hfirst j hjk)
        rw [heq, if_pos (show 0 < widestGap (canon nums) by rw [hwg]; exact hpos), hfind]
        simp only [Nat.zero_add]
        rw [if_pos hpos]
  · decide

/-! #### Order/multiplicity invariance (C10) -/

instance : IsAntisymm Nat (· < ·) :=
  ⟨fun _ _ h h' => absurd h' (Nat.lt_asymm h)⟩

/-- Two strictly ascending lists with the same members are equal, hence the
canonical list depends only on the member set. -/
theorem canon_eq_of_mem_iff {l₁ l₂ : List Nat} (h : ∀ x, x ∈ l₁ ↔ x ∈ l₂) :
    canon l₁ = canon l₂ := by
  have h1 := pairwise_lt_canon l₁
  have h2 := pairwise_lt_canon l₂
  have hmem : ∀ x, x ∈ canon l₁ ↔ x ∈ canon l₂ := fun x => by
    rw [mem_canon, mem_canon]; exact h x
  have hn1 : (canon l₁).Nodup := h1.imp (fun hlt => ne_of_lt hlt)
  have hn2 : (canon l₂).Nodup := h2.imp (fun hlt => ne_of_lt hlt)
  exact List.eq_of_perm_of_sorted ((List.perm_ext_iff_of_nodup hn1 hn2).2 hmem) h1 h2

/-- C10: the allocator's result depends only on the set of identifiers in the
input, not on their order or multiplicity. -/
theorem closestMissing_set_invariant (l₁ l₂ : List Nat)
    (h : ∀ x, x ∈ l₁ ↔ x ∈ l₂) : closestMissing l₁ = closestMissing l₂ := by
  by_cases h1 : l₁.length = 0
  · have hl1 : l₁ = [] := List.eq_nil_of_length_eq_zero h1
    subst hl1
    have hl2 : l₂ = [] := by
      cases l₂ with
      | nil => rfl
      | cons a t => exact absurd ((h a).2 (List.mem_cons_self a t)) (List.not_mem_nil a)
    subst hl2
    rfl
  · have h2 : ¬l₂.length = 0 := by
      intro hc
      have hl2 : l₂ = [] := List.eq_nil_of_length_eq_zero hc
      subst hl2
      rcases List.exists_mem_of_ne_nil l₁ (fun hc' => h1 (by rw [hc']; rfl)) with ⟨x, hx⟩
      exact absurd ((h x).1 hx) (List.not_mem_nil x)
    rw [closestMissing_eq l₁ h1, closestMissing_eq l₂ h2, canon_eq_of_mem_iff h]

/-- Witness for C10: `[1, 2, 2]` and `[2, 1]` carry the same identifier set. -/
theorem closestMissing_set_invariant_witness :
    (∀ x, x ∈ [1, 2, 2] ↔ x ∈ [2, 1]) ∧
      closestMissing [1, 2, 2] = closestMissing [2, 1] := by
  have hmem : ∀ x : Nat, x ∈ [1, 2, 2] ↔ x ∈ [2, 1] := by
    intro x
    simp only [List.mem_cons, List.not_mem_nil, or_false]
    tauto
  exact ⟨hmem, closestMissing_set_invariant _ _ hmem⟩

/-! ### Sidecar records and the query engine (`listBackups`, main.go:154-188) -/

/-- Model of `SidecarData` (main.go:284-295).  Go strings are `List Char`;
`time.Time` is a `Nat` timestamp whose order models `Time.Before`. -/
structure SidecarData where
  backupOf : List Char
  time : Nat
  id : Nat
  parentSize : Int
  parentPath : List Char
deriving DecidableEq

/-- Model of the external `fuzzy.Match` collaborator
(github.com/lithammer/fuzzysearch): greedy in-order scan of the haystack,
advancing in the pattern on each character hit.  The library is outside this
repository; per the spec a record matches when "every character of the
lowercased query appears in the haystack in the same relative order". -/
def fuzzyMatch : List Char → List Char → Bool
  | [], _ => true
  | _ :: _, [] => false
  | p :: ps, h :: hs => if p = h then fuzzyMatch ps hs else fuzzyMatch (p :: ps) hs

/-- Model of `SidecarData.FormatHay` (main.go:297-303):
`strings.ToLower(fmt.Sprintf("%v %s %s", ID, BackupOf, Time.Format(...)))`.
`lower` models `strings.ToLower` character-wise and `fmt` models
`Time.Local().Format(config.TimeFormat)`. -/
def formatHay (lower : Char → Char) (fmt : Nat → List Char) (sc : SidecarData) : List Char :=
  ((Nat.repr sc.id).toList ++ ' ' :: sc.backupOf ++ ' ' :: fmt sc.time).map lower

/-- Ascending-creation-time order used by `sort.Slice` in `listBackups`. -/
def timeLE (a b : SidecarData) : Prop := a.time ≤ b.time

instance : DecidableRel timeLE := fun a b => (inferInstance : Decidable (a.time ≤ b.time))

instance : IsTotal SidecarData timeLE := ⟨fun a b => Nat.le_total a.time b.time⟩

instance : IsTrans SidecarData timeLE := ⟨fun _ _ _ hab hbc => Nat.le_trans hab hbc⟩

/-- Model of `sort.Slice(sidecars, ...Time.Before...)` (main.go:162-164): a
permutation of the records that is ascending in creation time.  (Go's
`sort.Slice` is unstable, so the order of equal-time records is
unspecified; the model picks one valid result.) -/
def sortByTime (scs : List SidecarData) : List SidecarData :=
  List.insertionSort timeLE scs

/-- Model of the filter loop of `listBackups` (main.go:166-177): on an empty
query the sorted list itself, otherwise the records appended, in order,
whenever `fuzzy.Match(strings.ToLower(query), sc.FormatHay())` is true. -/
def listBackupsFilter (lower : Char → Char) (fmt : Nat → List Char)
    (scs : List SidecarData) (query : List Char) : List SidecarData :=
  if query = [] then sortByTime scs
  else
    (sortByTime scs).foldl
      (fun acc sc =>
        if fuzzyMatch (query.map lower) (formatHay lower fmt sc) then acc ++ [sc] else acc)
      []

theorem foldl_append_filter (p : SidecarData → Bool) :
    ∀ (l acc : List SidecarData),
      l.foldl (fun acc sc => if p sc then acc ++ [sc] else acc) acc = acc ++ l.filter p := by
  intro l
  induction l with
  | nil => intro acc; simp
  | cons a rest ih =>
    intro acc
    by_cases hp : p a
    · simp only [List.foldl_cons, if_pos hp, ih, List.filter_cons_of_pos hp, List.append_assoc,
        List.singleton_append]
    · simp only [List.foldl_cons, if_neg hp, ih,
        List.filter_cons_of_neg (by simpa using hp)]

/-- The greedy matcher decides exactly the ordered-subsequence relation. -/
theorem fuzzyMatch_iff_sublist :
    ∀ (s p : List Char), fuzzyMatch p s = true ↔ List.Sublist p s := by
  intro s
  induction s with
  | nil =>
    intro p
    cases p with
    | nil => simp [fuzzyMatch, List.nil_sublist]
    | cons a ps =>
      simp only [fuzzyMatch, List.sublist_nil]
      constructor
      · intro h; cases h
      · intro h; cases h
  | cons h hs ih =>
    intro p
    cases p with
    | nil => simp [fuzzyMatch, List.nil_sublist]
    | cons a ps =>
      by_cases hah : a = h
      · subst hah
        simp only [fuzzyMatch, if_pos rfl, eq_self_iff_true, if_true]
        rw [ih ps]
        exact List.cons_sublist_cons.symm
      · simp only [fuzzyMatch, if_neg hah]
        rw [ih (a :: ps)]
        constructor
        · intro hsub; exact hsub.cons h
        · intro hsub
          cases hsub with
          | cons _ h' => exact h'
          | cons₂ _ _ => exact absurd rfl hah

/-- C5: `listBackups` first sorts ascending by creation time; an empty query
returns the whole sorted sequence; a nonempty query keeps exactly the records
whose lowercase haystack contains the lowercased query as an ordered (not
necessarily contiguous) subsequence. -/
theorem listBackups_filter_spec (lower : Char → Char) (fmt : Nat → List Char)
    (scs : List SidecarData) (query : List Char) :
    List.Pairwise timeLE (sortByTime scs) ∧
    List.Perm (sortByTime scs) scs ∧
    (query = [] → listBackupsFilter lower fmt scs query = sortByTime scs) ∧
    (query ≠ [] →
      listBackupsFilter lower fmt scs query =
        (sortByTime scs).filter
          (fun sc => fuzzyMatch (query.map lower) (formatHay lower fmt sc))) ∧
    (∀ sc, fuzzyMatch (query.map lower) (formatHay lower fmt sc) = true ↔
      List.Sublist (query.map lower) (formatHay lower fmt sc)) := by
  refine ⟨List.sorted_insertionSort timeLE scs, List.perm_insertionSort timeLE scs, ?_, ?_, ?_⟩
  · intro hq
    simp [listBackupsFilter, hq]
  · intro hq
    rw [listBackupsFilter, if_neg hq, foldl_append_filter, List.nil_append]
  · intro sc
    exact fuzzyMatch_iff_sublist _ _

/-- Witness for C5 at a concrete store and query. -/
theorem listBackups_filter_spec_witness :
    ("1".toList ≠ []) ∧
      listBackupsFilter id (fun _ => []) [⟨['x'], 5, 1, 0, []⟩] "1".toList =
        (sortByTime [⟨['x'], 5, 1, 0, []⟩]).filter
          (fun sc => fuzzyMatch ("1".toList.map id) (formatHay id (fun _ => []) sc)) :=
  ⟨by decide,
    (listBackups_filter_spec id (fun _ => []) [⟨['x'], 5, 1, 0, []⟩] "1".toList).2.2.2.1
      (by decide)⟩

/-! ### Archive codec (`compressDir` / `decompressDir`, main.go:396-509) -/

/-- A node of a directory tree as seen by `filepath.Walk` (which uses `Lstat`
and does not follow links): a regular file with permission bits and content
bytes, a directory with permission bits, or a symbolic link with permission
bits and its actual (`os.Readlink`) target. -/
inductive FNode
  | file (perm : Nat) (content : List Nat)
  | dir (perm : Nat)
  | symlink (perm : Nat) (target : List Char)
deriving DecidableEq

inductive TarKind
  | reg
  | dir
  | symlink
  | other
deriving DecidableEq

/-- A container entry as written by `tar.Writer` in `compressDir`. -/
structure TarEntry where
  name : List Char
  kind : TarKind
  mode : Nat
  linkname : List Char
  content : List Nat
deriving DecidableEq

/-- Model of `compressDir` (main.go:396-447).  The input is the walk of the
source tree, root excluded, as (`filepath.Rel`-ative path, node) pairs in
walk order.  Each node goes through `tar.FileInfoHeader(info, relPath)`
(main.go:425): for a symlink, `FileInfoHeader` records its second argument
as `Linkname`, so the stored link target is the relative path of the symlink
itself — `os.Readlink` is never called.  Content is copied only for regular
files (main.go:434-445). -/
def compressDir (tree : List (List Char × FNode)) : List TarEntry :=
  tree.map (fun pn =>
    match pn.2 with
    | .file perm c => ⟨pn.1, .reg, perm, [], c⟩
    | .dir perm => ⟨pn.1, .dir, perm, [], []⟩
    | .symlink perm _ => ⟨pn.1, .symlink, perm, pn.1, []⟩)

/-- Strict ancestor paths of `p` (the prefixes ending before each `/`),
shallowest first; used to model `os.MkdirAll`. -/
def ancestorsGo (pre : List Char) : List Char → List (List Char)
  | [] => []
  | c :: rest =>
    if c = '/' then pre :: ancestorsGo (pre ++ ['/']) rest
    else ancestorsGo (pre ++ [c]) rest

def ancestors (p : List Char) : List (List Char) := ancestorsGo [] p

def hasPath (fs : List (List Char × FNode)) (p : List Char) : Bool :=
  fs.any (fun e => e.1 == p)

/-- Model of `os.MkdirAll(p, perm)`: create every missing directory on the
way to `p`, and `p` itself, each with `perm`. -/
def mkdirAll (fs : List (List Char × FNode)) (p : List Char) (perm : Nat) :
    List (List Char × FNode) :=
  (ancestors p ++ [p]).foldl
    (fun fs q => if hasPath fs q then fs else fs ++ [(q, FNode.dir perm)]) fs

/-- Model of `os.MkdirAll(filepath.Dir(p), 0o755)` as used before writing a
regular file or symlink (main.go:481, 496). -/
def mkdirParents (fs : List (List Char × FNode)) (p : List Char) :
    List (List Char × FNode) :=
  (ancestors p).foldl
    (fun fs q => if hasPath fs q then fs else fs ++ [(q, FNode.dir 0o755)]) fs

/-- Creation of a filesystem node at `p` (file create + copy, or
`os.Symlink`): replace an existing node, else append. -/
def setPath (fs : List (List Char × FNode)) (p : List Char) (n : FNode) :
    List (List Char × FNode) :=
  if hasPath fs p then fs.map (fun e => if e.1 == p then (p, n) else e)
  else fs ++ [(p, n)]

/-- Model of `decompressDir` (main.go:448-509) into a fresh empty destination
directory: replay the entries in stored order; directories via `MkdirAll`
with the stored mode, regular files with stored mode and content, symlinks
recreated from the stored `Linkname` (symlink permissions are not applied by
`os.Symlink`; 0o777 stands for the OS default), unknown kinds skipped. -/
def decompressDir (entries : List TarEntry) : List (List Char × FNode) :=
  entries.foldl
    (fun fs e =>
      match e.kind with
      | .dir => mkdirAll fs e.name e.mode
      | .reg => setPath (mkdirParents fs e.name) e.name (FNode.file e.mode e.content)
      | .symlink => setPath (mkdirParents fs e.name) e.name (FNode.symlink 0o777 e.linkname)
      | .other => fs)
    []

example :
    decompressDir (compressDir [(['a'], FNode.file 0o644 [1, 2, 3])]) =
      [(['a'], FNode.file 0o644 [1, 2, 3])] := by decide

/-- C2 evaluated at the failing input: a source tree holding one symbolic
link `link` → `/etc/hosts`.  Encode followed by decode into a fresh
destination yields a symlink whose target is `link` (the entry's own
relative path), not `/etc/hosts`: the round-trip law fails for symlink
targets because `compressDir` passes `relPath` as the link argument of
`tar.FileInfoHeader` instead of the `os.Readlink` target. -/
theorem roundTrip_symlink_bug :
    decompressDir
        (compressDir [(['l', 'i', 'n', 'k'], FNode.symlink 0o777 "/etc/hosts".toList)]) =
      [(['l', 'i', 'n', 'k'], FNode.symlink 0o777 ['l', 'i', 'n', 'k'])] ∧
    (['l', 'i', 'n', 'k'] : List Char) ≠ "/etc/hosts".toList := by
  constructor
  · decide
  · decide

/-! ### Sidecar store (`readSidecars`, main.go:339-394) -/

def jsonSuffix : List Char := ".json".toList

/-- Model of `strings.TrimSuffix`. -/
def trimSuffix (s suf : List Char) : List Char :=
  if suf.isSuffixOf s then s.take (s.length - suf.length) else s

/-- A directory entry of the store as `readSidecars` sees it: its name
(`os.ReadDir`), whether it is a directory, the `json.Unmarshal` result of
its content (`none` models an unparseable record file; irrelevant for
non-record files), and its `fileSize`. -/
structure Entry where
  name : List Char
  isDir : Bool
  parsed : Option SidecarData
  size : Int
deriving DecidableEq

/-- Population of a parsed record (main.go:387-388): `ParentSize` from
`fileSize(parentAbs)` (−1 when the stat fails) and `ParentPath`. -/
def mkRecord (all : List Entry) (sc : SidecarData) (parent : List Char) : SidecarData :=
  { sc with
    parentSize := ((all.find? (fun g => g.name == parent)).map Entry.size).getD (-1)
    parentPath := parent }

/-- The entry loop of `readSidecars` (main.go:354-391), iterating over the
snapshot listing `pending` taken at the start; `all` is that same full
listing, and the live `os.Stat(parentAbs)` existence check is modelled as
"present in `all` and not removed so far".  `delChoice` models the
interactive `askYesNo("Delete?")` answer for unparseable record files.
Returns the names removed (`os.Remove`) and the records accumulated, in
order.  `filepath.Ext(name) == ".json"` is modelled as the equivalent
`".json"`-suffix test (`"json"` contains no dot); `os.ReadFile` faults are
outside the state model. -/
def readLoop (all : List Entry) (delChoice : Bool) :
    List Entry → List (List Char) → List SidecarData →
      List (List Char) × List SidecarData
  | [], removed, acc => (removed, acc)
  | e :: rest, removed, acc =>
    if !(jsonSuffix.isSuffixOf e.name) || e.isDir then
      readLoop all delChoice rest removed acc
    else
      if !(all.any (fun g => g.name == trimSuffix e.name jsonSuffix)) ||
          removed.contains (trimSuffix e.name jsonSuffix) then
        readLoop all delChoice rest (e.name :: removed) acc
      else
        match e.parsed with
        | none =>
          if delChoice then
            readLoop all delChoice rest
              (e.name :: trimSuffix e.name jsonSuffix :: removed) acc
          else readLoop all delChoice rest removed acc
        | some sc =>
          readLoop all delChoice rest removed
            (acc ++ [mkRecord all sc (trimSuffix e.name jsonSuffix)])

/-- Model of `readSidecars` (main.go:339-394).  `none` models the absent
store directory (`os.Stat` → `ErrNotExist`), for which the empty record list
is returned with a nil error (main.go:342-345). -/
def readSidecars (dir : Option (List Entry)) (delChoice : Bool) :
    List (List Char) × List SidecarData :=
  match dir with
  | none => ([], [])
  | some entries => readLoop entries delChoice entries [] []

theorem readLoop_removed_mono (all : List Entry) (c : Bool) :
    ∀ (pending : List Entry) (removed : List (List Char)) (acc : List SidecarData)
      (x : List Char), x ∈ removed → x ∈ (readLoop all c pending removed acc).1 := by
  intro pending
  induction pending with
  | nil => intro removed acc x hx; exact hx
  | cons e rest ih =>
    intro removed acc x hx
    simp only [readLoop]
    split
    · exact ih _ _ x hx
    · split
      · exact ih _ _ x (List.mem_cons_of_mem _ hx)
      · cases hpe : e.parsed with
        | none =>
          cases c with
          | false => exact ih _ _ x hx
          | true =>
            exact ih _ _ x (List.mem_cons_of_mem _ (List.mem_cons_of_mem _ hx))
        | some sc => exact ih _ _ x hx

theorem readLoop_records_mono (all : List Entry) (c : Bool) :
    ∀ (pending : List Entry) (removed : List (List Char)) (acc : List SidecarData)
      (sc : SidecarData), sc ∈ acc → sc ∈ (readLoop all c pending removed acc).2 := by
  intro pending
  induction pending with
  | nil => intro removed acc sc hsc; exact hsc
  | cons e rest ih =>
    intro removed acc sc hsc
    simp only [readLoop]
    split
    · exact ih _ _ sc hsc
    · split
      · exact ih _ _ sc hsc
      · cases hpe : e.parsed with
        | none =>
          cases c with
          | false => exact ih _ _ sc hsc
          | true => exact ih _ _ sc hsc
        | some sd => exact ih _ _ sc (List.mem_append_left _ hsc)

theorem readLoop_orphan_removed (all : List Entry) (c : Bool) (e : Entry)
    (hjson : jsonSuffix.isSuffixOf e.name = true) (hdir : e.isDir = false)
    (horphan : ∀ g ∈ all, g.name ≠ trimSuffix e.name jsonSuffix) :
    ∀ (pending : List Entry) (removed : List (List Char)) (acc : List SidecarData),
      e ∈ pending → e.name ∈ (readLoop all c pending removed acc).1 := by
  intro pending
  induction pending with
  | nil => intro removed acc hmem; cases hmem
  | cons f rest ih =>
    intro removed acc hmem
    rcases List.mem_cons.1 hmem with rfl | hmem'
    · simp only [readLoop, hjson, hdir, Bool.not_true, Bool.false_or, Bool.or_false,
        if_false]
      have hany : (all.any (fun g => g.name == trimSuffix e.name jsonSuffix)) = false := by
        rw [List.any_eq_false]
        intro g hg
        simpa using horphan g hg
      rw [hany]
      simp only [Bool.not_false, Bool.true_or, if_true]
      exact readLoop_removed_mono all c rest _ acc e.name (List.mem_cons_self _ _)
    · simp only [readLoop]
      split
      · exact ih _ _ hmem'
      · split
        · exact ih _ _ hmem'
        · cases hpf : f.parsed with
          | none =>
            cases c with
            | false => exact ih _ _ hmem'
            | true => exact ih _ _ hmem'
          | some sd => exact ih _ _ hmem'

theorem readLoop_records_sub (all : List Entry) (c : Bool) :
    ∀ (pending : List Entry) (removed : List (List Char)) (acc : List SidecarData)
      (sc : SidecarData), sc ∈ (readLoop all c pending removed acc).2 →
        sc ∈ acc ∨ ∃ f, f ∈ pending ∧
          (∃ g ∈ all, g.name = trimSuffix f.name jsonSuffix) ∧
          ∃ sd, f.parsed = some sd ∧ sc = mkRecord all sd (trimSuffix f.name jsonSuffix) := by
  intro pending
  induction pending with
  | nil => intro removed acc sc hsc; exact Or.inl hsc
  | cons f rest ih =>
    intro removed acc sc hsc
    simp only [readLoop] at hsc
    have push : ∀ {removed' : List (List Char)} {acc' : List SidecarData},
        sc ∈ (readLoop all c rest removed' acc').2 →
        sc ∈ acc' ∨ ∃ f', f' ∈ f :: rest ∧
          (∃ g ∈ all, g.name = trimSuffix f'.name jsonSuffix) ∧
          ∃ sd, f'.parsed = some sd ∧ sc = mkRecord all sd (trimSuffix f'.name jsonSuffix) := by
      intro removed' acc' h
      rcases ih removed' acc' sc h with h' | ⟨f', hf', hrest⟩
      · exact Or.inl h'
      · exact Or.inr ⟨f', List.mem_cons_of_mem _ hf', hrest⟩
    split at hsc
    · exact push hsc
    · rename_i hcond
      split at hsc
      · exact push hsc
      · rename_i hcond2
        have hcondf : (!(all.any fun g => g.name == trimSuffix f.name jsonSuffix) ||
            removed.contains (trimSuffix f.name jsonSuffix)) = false := by
          simpa using hcond2
        have hany : (all.any fun g => g.name == trimSuffix f.name jsonSuffix) = true := by
          have h1 := (Bool.or_eq_false_iff.1 hcondf).1
          simpa using h1
        have hpar : ∃ g ∈ all, g.name = trimSuffix f.name jsonSuffix := by
          rcases List.any_eq_true.1 hany with ⟨g, hg, hgname⟩
          exact ⟨g, hg, by simpa using hgname⟩
        cases hpf : f.parsed with
        | none =>
          rw [hpf] at hsc
          cases c with
          | false =>
            simp only [if_false, Bool.false_eq_true] at hsc
            exact push hsc
          | true =>
            simp only [if_true] at hsc
            exact push hsc
        | some sd =>
          rw [hpf] at hsc
          rcases push hsc with h' | h'
          · rcases List.mem_append.1 h' with h'' | h''
            · exact Or.inl h''
            · refine Or.inr ⟨f, List.mem_cons_self _ _, hpar, sd, hpf, ?_⟩
              simpa using h''
          · exact Or.inr h'

theorem trimSuffix_append_of_suffix {s : List Char}
    (h : jsonSuffix.isSuffixOf s = true) :
    trimSuffix s jsonSuffix ++ jsonSuffix = s := by
  rcases List.isSuffixOf_iff_suffix.1 h with ⟨t, ht⟩
  subst ht
  unfold trimSuffix
  rw [if_pos h]
  have hlen : (t ++ jsonSuffix).length - jsonSuffix.length = t.length := by simp
  rw [hlen, List.take_left]

theorem readLoop_good_included (all : List Entry) (c : Bool)
    (hnodup : (all.map Entry.name).Nodup)
    (e' : Entry) (sc : SidecarData)
    (hjson : jsonSuffix.isSuffixOf e'.name = true) (hdir : e'.isDir = false)
    (hparsed : e'.parsed = some sc)
    (hpar : ∃ g ∈ all, g.name = trimSuffix e'.name jsonSuffix)
    (hparnotjson : jsonSuffix.isSuffixOf (trimSuffix e'.name jsonSuffix) = false)
    (hmemall : e' ∈ all) :
    ∀ (pending : List Entry) (removed : List (List Char)) (acc : List SidecarData),
      e' ∈ pending → pending ⊆ all →
      (∀ x ∈ removed, jsonSuffix.isSuffixOf x = true ∨
        ∃ f ∈ all, jsonSuffix.isSuffixOf f.name = true ∧ f.parsed = none ∧
          x = trimSuffix f.name jsonSuffix) →
      mkRecord all sc (trimSuffix e'.name jsonSuffix) ∈
        (readLoop all c pending removed acc).2 := by
  intro pending
  induction pending with
  | nil => intro removed acc hmem _ _; cases hmem
  | cons f rest ih =>
    intro removed acc hmem hsub hinv
    have hsubrest : rest ⊆ all := fun x hx => hsub (List.mem_cons_of_mem _ hx)
    rcases List.mem_cons.1 hmem with rfl | hmem'
    · have hnotrem : trimSuffix e'.name jsonSuffix ∉ removed := by
        intro hcon
        rcases hinv _ hcon with hx | ⟨f0, hf0, hf0json, hf0parse, hx⟩
        · exact absurd hx (by rw [hparnotjson]; simp)
        · have hname : f0.name = e'.name := by
            have h1 := trimSuffix_append_of_suffix hf0json
            have h2 := trimSuffix_append_of_suffix hjson
            rw [← h1, ← h2, hx]
          have : f0 = e' := List.inj_on_of_nodup_map hnodup hf0 hmemall hname
          rw [this, hparsed] at hf0parse
          cases hf0parse
      have hany : (all.any fun g => g.name == trimSuffix e'.name jsonSuffix) = true := by
        rcases hpar with ⟨g, hg, hgname⟩
        exact List.any_eq_true.2 ⟨g, hg, by simpa using hgname⟩
      have hcont : removed.contains (trimSuffix e'.name jsonSuffix) = false := by
        rw [← Bool.not_eq_true]
        intro hcon
        exact hnotrem (List.elem_iff.1 hcon)
      simp only [readLoop, hjson, hdir, Bool.not_true, Bool.false_or, Bool.or_false,
        if_false, hany, hcont, Bool.not_false, hparsed]
      exact readLoop_records_mono all c rest _ _ _
        (List.mem_append_right _ (List.mem_singleton.2 rfl))
    · simp only [readLoop]
      split
      · exact ih _ _ hmem' hsubrest hinv
      · rename_i hcondf
        have hfjson : jsonSuffix.isSuffixOf f.name = true := by
          revert hcondf
          cases h : jsonSuffix.isSuffixOf f.name <;> simp
        split
        · refine ih _ _ hmem' hsubrest ?_
          intro x hx
          rcases List.mem_cons.1 hx with rfl | hx'
          · exact Or.inl hfjson
          · exact hinv x hx'
        · cases hpf : f.parsed with
          | none =>
            cases c with
            | false => exact ih _ _ hmem' hsubrest hinv
            | true =>
              refine ih _ _ hmem' hsubrest ?_
              intro x hx
              rcases List.mem_cons.1 hx with rfl | hx'
              · exact Or.inl hfjson
              · rcases List.mem_cons.1 hx' with rfl | hx''
                · exact Or.inr ⟨f, hsub (List.mem_cons_self _ _), hfjson, hpf, rfl⟩
                · exact hinv x hx''
          | some sd => exact ih _ _ hmem' hsubrest hinv

/-- C6: enumeration self-heals: a record file whose expected sibling archive
(the record name with the metadata suffix stripped) is absent is deleted and
excluded from the returned sequence without failing the enumeration, other
well-formed records are still returned, and an absent store directory yields
the empty sequence rather than an error. -/
theorem readSidecars_selfheal (entries : List Entry) (c : Bool) (e : Entry)
    (hmem : e ∈ entries)
    (hjson : jsonSuffix.isSuffixOf e.name = true)
    (hdir : e.isDir = false)
    (horphan : ∀ g ∈ entries, g.name ≠ trimSuffix e.name jsonSuffix) :
    (∀ c', readSidecars none c' = ([], [])) ∧
    e.name ∈ (readSidecars (some entries) c).1 ∧
    (∀ sc ∈ (readSidecars (some entries) c).2,
      sc.parentPath ≠ trimSuffix e.name jsonSuffix) ∧
    (∀ (e' : Entry) (sc : SidecarData) (g : Entry),
      (entries.map Entry.name).Nodup →
      e' ∈ entries → jsonSuffix.isSuffixOf e'.name = true → e'.isDir = false →
      e'.parsed = some sc → g ∈ entries →
      g.name = trimSuffix e'.name jsonSuffix →
      jsonSuffix.isSuffixOf (trimSuffix e'.name jsonSuffix) = false →
      mkRecord entries sc (trimSuffix e'.name jsonSuffix) ∈
        (readSidecars (some entries) c).2) := by
  refine ⟨fun _ => rfl, ?_, ?_, ?_⟩
  · exact readLoop_orphan_removed entries c e hjson hdir horphan entries [] [] hmem
  · intro sc hsc
    rcases readLoop_records_sub entries c entries [] [] sc hsc with h | ⟨f, _, ⟨g, hg, hgname⟩, sd, _, hsc'⟩
    · cases h
    · intro hcon
      have hpp : sc.parentPath = trimSuffix f.name jsonSuffix := by
        rw [hsc']; rfl
      exact horphan g hg (by rw [hgname, ← hpp, hcon])
  · intro e' sc g hnodup hmem' hjson' hdir' hparsed hg hgname hgnotjson
    exact readLoop_good_included entries c hnodup e' sc hjson' hdir' hparsed
      ⟨g, hg, hgname⟩ hgnotjson hmem' entries [] []
      hmem' (fun x hx => hx) (fun x hx => absurd hx (List.not_mem_nil x))

/-- Concrete store for the C6 witness: an orphaned record file `o.json`
(no sibling `o`), plus a well-formed pair `a.json` / `a`. -/
def orphanEntryW : Entry := ⟨"o.json".toList, false, some ⟨[], 0, 3, 0, []⟩, 1⟩

def recordEntryW : Entry := ⟨"a.json".toList, false, some ⟨"src".toList, 9, 4, 0, []⟩, 2⟩

def archiveEntryW : Entry := ⟨"a".toList, false, none, 7⟩

def storeW : List Entry := [orphanEntryW, recordEntryW, archiveEntryW]

/-- Witness for C6 on the concrete store `storeW`. -/
theorem readSidecars_selfheal_witness :
    "o.json".toList ∈ (readSidecars (some storeW) false).1 ∧
    (∀ sc ∈ (readSidecars (some storeW) false).2,
      sc.parentPath ≠ trimSuffix "o.json".toList jsonSuffix) ∧
    mkRecord storeW ⟨"src".toList, 9, 4, 0, []⟩ (trimSuffix "a.json".toList jsonSuffix) ∈
      (readSidecars (some storeW) false).2 := by
  have h := readSidecars_selfheal storeW false orphanEntryW (by decide) (by decide)
    (by decide) (by decide)
  exact ⟨h.2.1, h.2.2.1,
    h.2.2.2 recordEntryW ⟨"src".toList, 9, 4, 0, []⟩ archiveEntryW (by decide) (by decide)
      (by decide) (by decide) (by decide) (by decide) (by decide) (by decide)⟩

/-! ### Backup creation failure path (`makeBackup`, main.go:78-127) -/

/-- The spec's store invariant (§3): every record file parses and has its
sibling archive file present in the store. -/
def healthyStore (entries : List Entry) : Prop :=
  ∀ e ∈ entries, jsonSuffix.isSuffixOf e.name = true → e.isDir = false →
    e.parsed.isSome = true ∧ ∃ g ∈ entries, g.name = trimSuffix e.name jsonSuffix

instance (entries : List Entry) : Decidable (healthyStore entries) := by
  unfold healthyStore
  infer_instance

/-- The record that one well-formed directory entry contributes to the
enumeration. -/
def goodRec (all : List Entry) (e : Entry) : Option SidecarData :=
  if jsonSuffix.isSuffixOf e.name && !e.isDir then
    e.parsed.map (fun sc => mkRecord all sc (trimSuffix e.name jsonSuffix))
  else none

theorem readLoop_healthy (all : List Entry) (c : Bool) (hH : healthyStore all) :
    ∀ (pending : List Entry) (acc : List SidecarData), pending ⊆ all →
      readLoop all c pending [] acc = ([], acc ++ pending.filterMap (goodRec all)) := by
  intro pending
  induction pending with
  | nil => intro acc _; simp [readLoop]
  | cons e rest ih =>
    intro acc hsub
    have hsubrest : rest ⊆ all := fun x hx => hsub (List.mem_cons_of_mem _ hx)
    cases hjson : jsonSuffix.isSuffixOf e.name with
    | false =>
      have hgood : goodRec all e = none := by simp [goodRec, hjson]
      simp only [readLoop, hjson, Bool.not_false, Bool.true_or, if_true,
        List.filterMap_cons, hgood]
      exact ih _ hsubrest
    | true =>
      cases hdir : e.isDir with
      | true =>
        have hgood : goodRec all e = none := by simp [goodRec, hdir]
        simp only [readLoop, hjson, hdir, Bool.not_true, Bool.false_or, if_true,
          List.filterMap_cons, hgood]
        exact ih _ hsubrest
      | false =>
        obtain ⟨hsome, g, hg, hgname⟩ := hH e (hsub (List.mem_cons_self _ _)) hjson hdir
        obtain ⟨sc, hsc⟩ := Option.isSome_iff_exists.1 hsome
        have hany : (all.any fun g => g.name == trimSuffix e.name jsonSuffix) = true :=
          List.any_eq_true.2 ⟨g, hg, by simpa using hgname⟩
        have hgood : goodRec all e =
            some (mkRecord all sc (trimSuffix e.name jsonSuffix)) := by
          simp [goodRec, hjson, hdir, hsc]
        simp only [readLoop, hjson, hdir, Bool.not_true, Bool.false_or, if_false,
          hany, List.contains, List.elem_nil, Bool.or_false, hsc,
          List.filterMap_cons, hgood]
        exact (ih _ hsubrest).trans (by simp)

theorem readSidecars_healthy (entries : List Entry) (c : Bool)
    (hH : healthyStore entries) :
    readSidecars (some entries) c = ([], entries.filterMap (goodRec entries)) := by
  have h := readLoop_healthy entries c hH entries [] (fun x hx => hx)
  simpa [readSidecars] using h

theorem find?_append_left {α : Type} (p : α → Bool) :
    ∀ (l₁ l₂ : List α), (l₁.find? p).isSome = true →
      (l₁ ++ l₂).find? p = l₁.find? p := by
  intro l₁
  induction l₁ with
  | nil => intro l₂ h; simp [List.find?] at h
  | cons a t ih =>
    intro l₂ h
    cases hpa : p a
    · simp only [List.cons_append, List.find?_cons, hpa] at h ⊢
      exact ih l₂ h
    · simp [List.find?_cons, hpa]

/-- Failure path of `makeBackup` in which the record file was written and
`compressDir` then fails (main.go:105-120): `generateSidecar` first runs
`readSidecars` (whose healing deletions are applied to the store), then
writes the record file; the failing `compressDir` has already created the
destination archive file (`os.Create`, main.go:397) whose partial bytes
remain; finally the rollback closure removes the record file
(main.go:334-336 invoked at main.go:118).  `c` is the interactive answer
used during the healing pass; `rcd` the serialized record. -/
def makeBackupFailState (entries : List Entry) (c : Bool)
    (sidecarName archiveName : List Char) (rcd : SidecarData) (archSize : Int) :
    List Entry :=
  ((entries.filter
        (fun e : Entry => !((readLoop entries c entries [] []).1.contains e.name))
      ++ ([⟨sidecarName, false, some rcd, 0⟩] : List Entry))
      ++ ([⟨archiveName, false, none, archSize⟩] : List Entry)).filter
    (fun e : Entry => !(e.name == sidecarName))

/-- C4: when `makeBackup` fails during `compressDir` on a store satisfying
the spec's §3 invariant, the rollback handle removes the freshly written
record file: no record file of the attempted backup remains, and the
enumerable record set equals the pre-call one — only the stray partial
archive file is left behind. -/
theorem makeBackup_rollback (entries : List Entry) (c : Bool)
    (sidecarName archiveName : List Char) (rcd : SidecarData) (archSize : Int)
    (hH : healthyStore entries)
    (hfresh : ∀ e ∈ entries, e.name ≠ sidecarName ∧ e.name ≠ archiveName)
    (hsuffix : sidecarName = archiveName ++ jsonSuffix)
    (harch : jsonSuffix.isSuffixOf archiveName = false) :
    (∀ e ∈ makeBackupFailState entries c sidecarName archiveName rcd archSize,
      e.name ≠ sidecarName) ∧
    (∀ c', (readSidecars
        (some (makeBackupFailState entries c sidecarName archiveName rcd archSize))
        c').2 =
      (readSidecars (some entries) c').2) := by
  have hloop := readLoop_healthy entries c hH entries [] (fun x hx => hx)
  have hrem : (readLoop entries c entries [] []).1 = [] := by rw [hloop]
  have hne : archiveName ≠ sidecarName := by
    intro hcon
    have hlen : sidecarName.length = archiveName.length + jsonSuffix.length := by
      rw [hsuffix, List.length_append]
    have hj : jsonSuffix.length = 5 := by decide
    rw [hcon] at hlen
    omega
  have hstate : makeBackupFailState entries c sidecarName archiveName rcd archSize =
      entries ++ [⟨archiveName, false, none, archSize⟩] := by
    unfold makeBackupFailState
    rw [hrem]
    have h1 : entries.filter
        (fun e : Entry => !(([] : List (List Char)).contains e.name)) = entries := by
      apply List.filter_eq_self.2
      intro e _
      simp
    have h2 : entries.filter (fun e : Entry => !(e.name == sidecarName)) = entries := by
      apply List.filter_eq_self.2
      intro e he
      simpa using (hfresh e he).1
    have h3 : (([⟨sidecarName, false, some rcd, 0⟩] : List Entry)).filter
        (fun e : Entry => !(e.name == sidecarName)) = [] := by simp
    have h4 : (([⟨archiveName, false, none, archSize⟩] : List Entry)).filter
        (fun e : Entry => !(e.name == sidecarName)) =
        [⟨archiveName, false, none, archSize⟩] := by simp [hne]
    rw [h1, List.filter_append, List.filter_append, h2, h3, h4, List.append_nil]
  constructor
  · intro e he
    rw [hstate] at he
    rcases List.mem_append.1 he with h | h
    · exact (hfresh e h).1
    · rw [List.mem_singleton.1 h]
      exact hne
  · intro c'
    have hH' : healthyStore (entries ++ [⟨archiveName, false, none, archSize⟩]) := by
      intro e he hjson hdir
      rcases List.mem_append.1 he with h | h
      · obtain ⟨hsome, g, hg, hgname⟩ := hH e h hjson hdir
        exact ⟨hsome, g, List.mem_append_left _ hg, hgname⟩
      · rw [List.mem_singleton.1 h] at hjson
        rw [show (⟨archiveName, false, none, archSize⟩ : Entry).name = archiveName from rfl,
          harch] at hjson
        cases hjson
    rw [hstate, readSidecars_healthy _ c' hH', readSidecars_healthy _ c' hH]
    rw [List.filterMap_append]
    have h5 : (([⟨archiveName, false, none, archSize⟩] : List Entry)).filterMap
        (goodRec (entries ++ [⟨archiveName, false, none, archSize⟩])) = [] := by
      simp [goodRec, harch]
    rw [h5, List.append_nil]
    refine List.filterMap_congr (fun e he => ?_)
    unfold goodRec
    by_cases hjd : (jsonSuffix.isSuffixOf e.name && !e.isDir) = true
    · rw [if_pos hjd, if_pos hjd]
      obtain ⟨hj, hd⟩ : jsonSuffix.isSuffixOf e.name = true ∧ (!e.isDir) = true := by
        rw [← Bool.and_eq_true]
        exact hjd
      have hd' : e.isDir = false := by simpa using hd
      have hHe : e.parsed.isSome = true ∧
          ∃ g ∈ entries, g.name = trimSuffix e.name jsonSuffix := hH e he hj hd'
      obtain ⟨hsome2, g, hg, hgname⟩ := hHe
      have hfind : ((entries ++ ([⟨archiveName, false, none, archSize⟩] : List Entry)).find?
          (fun g => g.name == trimSuffix e.name jsonSuffix)) =
          (entries.find? (fun g => g.name == trimSuffix e.name jsonSuffix)) := by
        apply find?_append_left
        rw [List.find?_isSome]
        exact ⟨g, hg, by simpa using hgname⟩
      have hmk : ∀ sc, mkRecord (entries ++ [⟨archiveName, false, none, archSize⟩]) sc
          (trimSuffix e.name jsonSuffix) =
          mkRecord entries sc (trimSuffix e.name jsonSuffix) := by
        intro sc
        unfold mkRecord
        rw [hfind]
      cases e.parsed with
      | none => rfl
      | some sc => simp [hmk sc]
    · rw [if_neg hjd, if_neg hjd]

/-- Healthy concrete store for the C4 witness. -/
def healthyStoreW : List Entry := [recordEntryW, archiveEntryW]

/-- Witness for C4 at a concrete healthy store, with fresh names `b.json` /
`b` for the attempted backup. -/
theorem makeBackup_rollback_witness :
    (∀ e ∈ makeBackupFailState healthyStoreW false "b.json".toList "b".toList
        ⟨[], 0, 2, 0, []⟩ 7, e.name ≠ "b.json".toList) ∧
    (readSidecars (some (makeBackupFailState healthyStoreW false "b.json".toList
        "b".toList ⟨[], 0, 2, 0, []⟩ 7)) false).2 =
      (readSidecars (some healthyStoreW) false).2 := by
  have h := makeBackup_rollback healthyStoreW false "b.json".toList "b".toList
    ⟨[], 0, 2, 0, []⟩ 7 (by decide) (by decide) (by decide) (by decide)
  exact ⟨h.1, h.2 false⟩

/-! ### Restore (`restoreFrom`, main.go:128-153) -/

/-- The Go zero value of `SidecarData`, the value `backupSidecar` keeps when
no record matches the requested id (main.go:135-141). -/
def zeroSidecar : SidecarData := ⟨[], 0, 0, 0, []⟩

/-- Outcomes of a restore run, classified by the spec's error taxonomy
(§7): a NotFound report, an IO error surfaced from decoding, or a
successful restore into a destination directory. -/
inductive RestoreOutcome
  | notFound
  | ioError
  | restored (dst : List Char)
deriving DecidableEq

/-- Model of `filepath.Base`. -/
def baseName (p : List Char) : List Char :=
  if p = [] then ['.']
  else
    let q := p.reverse.dropWhile (fun c => c = '/')
    if q = [] then ['/']
    else (q.takeWhile (fun c => ¬c = '/')).reverse

/-- Model of `restoreFrom` (main.go:128-153) against the enumerated records
`scs` and the set `files` of archive paths that exist on disk.  The loop
keeps the first record whose `ID` equals `id`; when none matches, the
zero-valued `backupSidecar` is kept and the function proceeds to
`decompressDir(backupSidecar.ParentPath, ...)` anyway.  Decoding succeeds
iff the archive path names an existing file (`os.Open` of the empty string
always fails), and on failure the error is surfaced as a decompression
error — there is no NotFound branch in the code. -/
def restoreFrom (scs : List SidecarData) (files : List (List Char)) (id : Nat) :
    RestoreOutcome :=
  let sc := (scs.find? (fun s => s.id == id)).getD zeroSidecar
  if sc.parentPath ∈ files then
    RestoreOutcome.restored (baseName sc.backupOf ++ "-restored".toList)
  else RestoreOutcome.ioError

/-- C7 counterexample: for the empty record list and the absent id 5,
`restoreFrom` does **not** produce a NotFound outcome — it proceeds to
decode with the zero-valued record and fails with an IO error. -/
theorem restoreFrom_no_notFound :
    (5 ∉ ([] : List SidecarData).map SidecarData.id) ∧
    restoreFrom [] [] 5 ≠ RestoreOutcome.notFound ∧
    restoreFrom [] [] 5 = RestoreOutcome.ioError := by decide

/-- C7 amended: when the requested id is absent, `restoreFrom` proceeds to
decode with the zero-valued record; its empty archive path never names an
existing file, so the run ends in an IO error (reported as a decompression
error), not a NotFound report. -/
theorem restoreFrom_absent_ioError (scs : List SidecarData)
    (files : List (List Char)) (id : Nat)
    (habs : id ∉ scs.map SidecarData.id) (hfiles : [] ∉ files) :
    restoreFrom scs files id = RestoreOutcome.ioError := by
  have hfind : scs.find? (fun s => s.id == id) = none := by
    rw [List.find?_eq_none]
    intro s hs
    simp only [beq_iff_eq]
    intro hcon
    exact habs (List.mem_map.2 ⟨s, hs, hcon⟩)
  unfold restoreFrom
  rw [hfind]
  exact if_neg (by simpa [zeroSidecar] using hfiles)

/-- Witness for the amended C7 at a concrete store. -/
theorem restoreFrom_absent_ioError_witness :
    (9 ∉ ([⟨[], 3, 7, 0, ['a']⟩] : List SidecarData).map SidecarData.id) ∧
    ([] ∉ [['a']]) ∧
    restoreFrom [⟨[], 3, 7, 0, ['a']⟩] [['a']] 9 = RestoreOutcome.ioError :=
  ⟨by decide, by decide,
    restoreFrom_absent_ioError [⟨[], 3, 7, 0, ['a']⟩] [['a']] 9 (by decide) (by decide)⟩

/-! ### Purge (spec §4.5) -/

/-- Store files for the purge model: the archive path paired with a flag
that is `true` for the `.json` record file and `false` for the archive. -/
abbrev StoreFile := List Char × Bool

/-- Model of `SidecarData.DeleteAll` (main.go:304-309): best-effort removal
of the archive file and its record file, guarded on a nonempty
`ParentPath`. -/
def deleteAll (sc : SidecarData) (fs : Finset StoreFile) : Finset StoreFile :=
  if sc.parentPath ≠ [] then (fs.erase (sc.parentPath, false)).erase (sc.parentPath, true)
  else fs

/-- Modelled from the spec: `purgeBackups(cutoffTime)` (§4.5).  The purge
command itself is absent from `src/main.go` — only its building blocks
(`DeleteAll`, `parseDurationExt`, `readUint16Fatal`) exist there.  Per the
spec, every enumerated record with `createdAt` strictly before the cutoff is
deleted via `deleteRecord` (= `DeleteAll`) and the count of deletions is
returned for reporting. -/
def purgeBackups (cutoff : Nat) :
    List SidecarData → Finset StoreFile → Nat → Finset StoreFile × Nat
  | [], fs, n => (fs, n)
  | sc :: rest, fs, n =>
    if sc.time < cutoff then purgeBackups cutoff rest (deleteAll sc fs) (n + 1)
    else purgeBackups cutoff rest fs n

/-- A record is enumerable in a store state when both its record file and
its archive file exist (§4.3: records without their archive are pruned). -/
def enumerable (sc : SidecarData) (fs : Finset StoreFile) : Prop :=
  (sc.parentPath, true) ∈ fs ∧ (sc.parentPath, false) ∈ fs

instance (sc : SidecarData) (fs : Finset StoreFile) : Decidable (enumerable sc fs) := by
  unfold enumerable
  infer_instance

theorem purgeBackups_count (cutoff : Nat) :
    ∀ (scs : List SidecarData) (fs : Finset StoreFile) (n : Nat),
      (purgeBackups cutoff scs fs n).2 =
        n + scs.countP (fun sc => decide (sc.time < cutoff)) := by
  intro scs
  induction scs with
  | nil => intro fs n; simp [purgeBackups]
  | cons sc rest ih =>
    intro fs n
    by_cases h : sc.time < cutoff
    · rw [purgeBackups, if_pos h, ih, List.countP_cons, decide_eq_true h, if_pos rfl]
      omega
    · rw [purgeBackups, if_neg h, ih, List.countP_cons, decide_eq_false h,
        if_neg Bool.false_ne_true]
      omega

theorem purgeBackups_mem (cutoff : Nat) :
    ∀ (scs : List SidecarData) (fs : Finset StoreFile) (n : Nat) (x : StoreFile),
      x ∈ (purgeBackups cutoff scs fs n).1 ↔
        x ∈ fs ∧ ∀ sc ∈ scs, sc.time < cutoff → sc.parentPath ≠ [] →
          x ≠ (sc.parentPath, false) ∧ x ≠ (sc.parentPath, true) := by
  intro scs
  induction scs with
  | nil =>
    intro fs n x
    simp [purgeBackups]
  | cons sc rest ih =>
    intro fs n x
    by_cases h : sc.time < cutoff
    · rw [purgeBackups, if_pos h, ih]
      by_cases hp : sc.parentPath = []
      · constructor
        · rintro ⟨hx, hrest⟩
          refine ⟨by simpa [deleteAll, hp] using hx, ?_⟩
          intro sc' hsc' ht' hp'
          rcases List.mem_cons.1 hsc' with rfl | h'
          · exact absurd hp hp'
          · exact hrest sc' h' ht' hp'
        · rintro ⟨hx, hall⟩
          refine ⟨by simpa [deleteAll, hp] using hx, ?_⟩
          intro sc' hsc' ht' hp'
          exact hall sc' (List.mem_cons_of_mem _ hsc') ht' hp'
      · constructor
        · rintro ⟨hx, hrest⟩
          rw [deleteAll, if_pos hp] at hx
          rcases Finset.mem_erase.1 hx with ⟨hne1, hx2⟩
          rcases Finset.mem_erase.1 hx2 with ⟨hne2, hx3⟩
          refine ⟨hx3, ?_⟩
          intro sc' hsc' ht' hp'
          rcases List.mem_cons.1 hsc' with rfl | h'
          · exact ⟨hne2, hne1⟩
          · exact hrest sc' h' ht' hp'
        · rintro ⟨hx, hall⟩
          have hself := hall sc (List.mem_cons_self _ _) h hp
          refine ⟨?_, ?_⟩
          · rw [deleteAll, if_pos hp]
            exact Finset.mem_erase.2 ⟨hself.2, Finset.mem_erase.2 ⟨hself.1, hx⟩⟩
          · intro sc' hsc' ht' hp'
            exact hall sc' (List.mem_cons_of_mem _ hsc') ht' hp'
    · rw [purgeBackups, if_neg h, ih]
      constructor
      · rintro ⟨hx, hrest⟩
        refine ⟨hx, ?_⟩
        intro sc' hsc' ht' hp'
        rcases List.mem_cons.1 hsc' with rfl | h'
        · exact absurd ht' h
        · exact hrest sc' h' ht' hp'
      · rintro ⟨hx, hall⟩
        exact ⟨hx, fun sc' h' ht' hp' => hall sc' (List.mem_cons_of_mem _ h') ht' hp'⟩

/-- C8 (spec-modelled): `purgeBackups(cutoff)` deletes exactly the records
whose creation time is strictly before the cutoff — removing, via
`DeleteAll`, both the record file and the archive file — reports the count
deleted, and every record at or after the cutoff remains enumerable. -/
theorem purgeBackups_spec (cutoff : Nat) (scs : List SidecarData)
    (fs : Finset StoreFile)
    (hnodup : (scs.map SidecarData.parentPath).Nodup)
    (hok : ∀ sc ∈ scs, sc.parentPath ≠ [] ∧ enumerable sc fs) :
    (purgeBackups cutoff scs fs 0).2 =
      scs.countP (fun sc => decide (sc.time < cutoff)) ∧
    ∀ sc ∈ scs,
      (enumerable sc (purgeBackups cutoff scs fs 0).1 ↔ cutoff ≤ sc.time) := by
  constructor
  · rw [purgeBackups_count]
    omega
  · intro sc hsc
    constructor
    · intro henum
      by_contra hlt
      push_neg at hlt
      rcases henum with ⟨htrue, _⟩
      rcases (purgeBackups_mem cutoff scs fs 0 _).1 htrue with ⟨_, hall⟩
      exact (hall sc hsc hlt (hok sc hsc).1).2 rfl
    · intro hle
      have hmemtf : ∀ b : Bool, (sc.parentPath, b) ∈ (purgeBackups cutoff scs fs 0).1 := by
        intro b
        rw [purgeBackups_mem]
        refine ⟨?_, ?_⟩
        · rcases (hok sc hsc).2 with ⟨ht, hf⟩
          cases b
          · exact hf
          · exact ht
        · intro sc' hsc' ht' _
          have hne : sc' ≠ sc := by
            intro hcon
            rw [hcon] at ht'
            omega
          have hpne : sc'.parentPath ≠ sc.parentPath := by
            intro hcon
            exact hne (List.inj_on_of_nodup_map hnodup hsc' hsc hcon)
          constructor
          · intro hcon
            exact hpne (by injection hcon with h1 _; exact h1.symm)
          · intro hcon
            exact hpne (by injection hcon with h1 _; exact h1.symm)
      exact ⟨hmemtf true, hmemtf false⟩

/-- Concrete records and store for the C8 witness. -/
def purgeScsW : List SidecarData := [⟨[], 1, 1, 0, ['a']⟩, ⟨[], 5, 2, 0, ['b']⟩]

def purgeFsW : Finset StoreFile :=
  {(['a'], false), (['a'], true), (['b'], false), (['b'], true)}

/-- Witness for C8: cutoff 3 deletes the record created at time 1 and keeps
the record created at time 5 enumerable. -/
theorem purgeBackups_spec_witness :
    (purgeBackups 3 purgeScsW purgeFsW 0).2 = 1 ∧
    (enumerable ⟨[], 5, 2, 0, ['b']⟩ (purgeBackups 3 purgeScsW purgeFsW 0).1 ↔
      3 ≤ (5 : Nat)) := by
  have h := purgeBackups_spec 3 purgeScsW purgeFsW (by decide) (by decide)
  exact ⟨h.1.trans (by decide), h.2 ⟨[], 5, 2, 0, ['b']⟩ (by decide)⟩

/-! ### Duration parsing (`parseDurationExt`, main.go:627-636) -/

deriving instance DecidableEq for Except

/-- Value of a decimal digit string. -/
def digitsVal (ds : List Char) : Nat :=
  ds.foldl (fun acc c => acc * 10 + (c.toNat - '0'.toNat)) 0

/-- Model of `strconv.Atoi`: an optional sign followed by one or more
decimal digits; anything else is an error.  (Go's 64-bit overflow bound is
immaterial to the claims and omitted; the value is an exact `Int`.) -/
def atoi (s : List Char) : Except Unit Int :=
  match s with
  | [] => Except.error ()
  | c :: rest =>
    if c = '+' then
      if rest ≠ [] ∧ rest.all Char.isDigit then Except.ok (digitsVal rest)
      else Except.error ()
    else if c = '-' then
      if rest ≠ [] ∧ rest.all Char.isDigit then Except.ok (-(digitsVal rest : Int))
      else Except.error ()
    else if (c :: rest).all Char.isDigit then Except.ok (digitsVal (c :: rest))
    else Except.error ()

/-- Nanosecond multiplier of a duration unit token.  `time.ParseDuration`
knows exactly `ns`, `us`/`µs`, `ms`, `s`, `m`, `h`; any other unit run — in
particular `d` — is an error. -/
def unitNanos : List Char → Option Int
  | ['n', 's'] => some 1
  | ['u', 's'] => some 1000
  | ['m', 's'] => some 1000000
  | ['s'] => some 1000000000
  | ['m'] => some 60000000000
  | ['h'] => some 3600000000000
  | _ => none

/-- Modelled from the spec: the group loop of the standard duration grammar
(`time.ParseDuration`, an external collaborator the spec references as "the
standard one"): repeatedly read a decimal number followed by a unit run (the
characters up to the next digit or dot) and accumulate.  Modelled for
integer quantities; fractional quantities are not exercised by any claim.
The fuel argument only bounds the recursion and never runs out when started
at the input length, as every group consumes at least one character. -/
def durGroups : Nat → List Char → Int → Except Unit Int
  | _, [], acc => Except.ok acc
  | 0, _ :: _, _ => Except.error ()
  | fuel + 1, s, acc =>
    let ds := s.takeWhile Char.isDigit
    if ds = [] then Except.error ()
    else
      let rest := s.dropWhile Char.isDigit
      let us := rest.takeWhile (fun c => ¬(c = '.' ∨ c.isDigit = true))
      let rest2 := rest.dropWhile (fun c => ¬(c = '.' ∨ c.isDigit = true))
      match unitNanos us with
      | none => Except.error ()
      | some m => durGroups fuel rest2 (acc + (digitsVal ds : Int) * m)

/-- Modelled from the spec: `time.ParseDuration` for integer quantities — an
optional sign, the special whole string "0", else one or more number/unit
groups. -/
def parseDuration (s : List Char) : Except Unit Int :=
  match s with
  | [] => Except.error ()
  | c :: rest =>
    let neg : Bool := c = '-'
    let body := if c = '-' ∨ c = '+' then rest else c :: rest
    if body = ['0'] then Except.ok 0
    else if body = [] then Except.error ()
    else
      match durGroups body.length body 0 with
      | Except.ok v => Except.ok (if neg then -v else v)
      | Except.error e => Except.error e

/-- Model of `parseDurationExt` (main.go:627-636): a string with a whole
`d` suffix is parsed by `strconv.Atoi` on the rest and scaled by 24 hours
(`n * 24 * time.Hour` = `n * 86400e9` nanoseconds); any other string goes to
the standard parser. -/
def parseDurationExt (s : List Char) : Except Unit Int :=
  if (['d'] : List Char).isSuffixOf s then
    match atoi (trimSuffix s ['d']) with
    | Except.ok n => Except.ok (n * 86400000000000)
    | Except.error e => Except.error e
  else parseDuration s

example : parseDurationExt "12h".toList = Except.ok 43200000000000 := by decide
example : parseDurationExt "2d".toList = Except.ok 172800000000000 := by decide

/-- C9 counterexample: the spec's own example `"1d12h"` — a day component
combined with a standard component — is rejected: the string does not end in
`d`, so it goes to the standard parser, whose unit table has no `d`. -/
theorem parseDurationExt_1d12h_fails :
    parseDurationExt "1d12h".toList = Except.error () := by decide

/-- C9 amended: the day extension applies only to whole-string `<integer>d`
expressions, which parse to `n × 24h`; pure standard expressions still parse
(e.g. `"12h"`, `"1h30m"`); a day component combined with standard
components, such as `"1d12h"`, is an error. -/
theorem parseDurationExt_amended :
    (∀ s : List Char, s ≠ [] → (∀ c ∈ s, c.isDigit = true) →
      parseDurationExt (s ++ ['d']) =
        Except.ok ((digitsVal s : Int) * 86400000000000)) ∧
    parseDurationExt "12h".toList = Except.ok 43200000000000 ∧
    parseDurationExt "1h30m".toList = Except.ok 5400000000000 ∧
    parseDurationExt "1d12h".toList = Except.error () := by
  refine ⟨?_, by decide, by decide, by decide⟩
  intro s hne hdig
  have hsuf : (['d'] : List Char).isSuffixOf (s ++ ['d']) = true :=
    List.isSuffixOf_iff_suffix.2 ⟨s, rfl⟩
  have htrim : trimSuffix (s ++ ['d']) ['d'] = s := by
    unfold trimSuffix
    rw [if_pos hsuf]
    have hlen : (s ++ ['d']).length - (['d'] : List Char).length = s.length := by simp
    rw [hlen, List.take_left]
  have hatoi : atoi s = Except.ok ((digitsVal s : Int)) := by
    cases s with
    | nil => exact absurd rfl hne
    | cons c rest =>
      have hc : c.isDigit = true := hdig c (List.mem_cons_self _ _)
      have hplus : ¬c = '+' := by
        intro hcon
        rw [hcon] at hc
        exact absurd hc (by decide)
      have hminus : ¬c = '-' := by
        intro hcon
        rw [hcon] at hc
        exact absurd hc (by decide)
      have hall : (c :: rest).all Char.isDigit = true :=
        List.all_eq_true.2 (fun x hx => hdig x hx)
      simp only [atoi]
      rw [if_neg hplus, if_neg hminus, if_pos hall]
  unfold parseDurationExt
  rw [if_pos hsuf, htrim, hatoi]

/-- Witness for the amended C9 at `s = "36"`. -/
theorem parseDurationExt_amended_witness :
    ("36".toList ≠ [] ∧ ∀ c ∈ "36".toList, c.isDigit = true) ∧
    parseDurationExt ("36".toList ++ ['d']) =
      Except.ok ((digitsVal "36".toList : Int) * 86400000000000) :=
  ⟨⟨by decide, by decide⟩,
    parseDurationExt_amended.1 "36".toList (by decide) (by decide)⟩

end Backman
